import Mathlib

/-!
Verification of the label-state consolidation engine of the
HIL-ML-classification-pipeline repository.

The definitions below are a shallow embedding of the Python source:

* `update_master_labels` embeds the merge step of
  `src/core/labeling/label_manager.py` (`master += new;
  unique = {item['id']: item for item in master}; master = list(unique.values())`),
  where the insertion-ordered Python dict is modelled by `dedupById`.
* `integrate_changes_with_master` embeds the merge loop of
  `src/core/utils/change_detection.py` (lookup built once from the loaded
  master, replace-first-in-place for known ids, append for new ids).
* `detect_changes_from_excel` embeds the row loop of
  `src/core/utils/change_detection.py`, including the
  `int(row.get(category, 0)) if pd.notna(...) else 0` cell coercion,
  which raises (modelled as `none`) on a non-numeric string cell.
* `update_master_events` / `integrate_events` give the file-system event
  skeleton of the snapshot replacement (write the new snapshot, then delete
  the superseded files).
* `masterFilenameChars`, `batchFilename` and `pyLtChars` embed the generated
  snapshot/batch artifact names and Python string comparison (code-point
  lexicographic), used by `sorted(files)[-1]`.
* `select_batch_by_length` embeds the "longest" batch selection of
  `src/core/labeling/batch_processor.py` (`nlargest` = stable descending
  sort on text length, keep first occurrences).
-/

/-- A labeled record: substitute for one JSON object
`{id, text_content, label₁..labelₙ}` of the repository.  The label columns
are kept as an association list, looked up with a default of `0` exactly as
the Python code does with `record.get(category, 0)`. -/
structure LRecord where
  id : String
  text_content : String
  labels : List (String × Int)
deriving DecidableEq, Repr

/-- The ids of a list of records, in order. -/
def idsOf (l : List LRecord) : List String := l.map LRecord.id

/-- One step of building the insertion-ordered Python dict
`{item['id']: item for item in master}`: a key already present keeps its
position but takes the new value, a new key is appended. -/
def insertLWW (acc : List LRecord) (r : LRecord) : List LRecord :=
  if acc.any (fun x => x.id == r.id) then
    acc.map (fun x => if x.id == r.id then r else x)
  else
    acc ++ [r]

/-- `list({item['id']: item for item in l}.values())`: last-write-wins
deduplication by id, preserving first-occurrence positions. -/
def dedupById (l : List LRecord) : List LRecord := l.foldl insertLWW []

/-- Merge step of `update_master_labels` (label_manager.py, lines 70-81).
`none` is the initial state in which no master snapshot file exists: the
batch is then taken verbatim.  Otherwise the batch is appended to the
loaded master and the result deduplicated through the Python dict. -/
def update_master_labels (master : Option (List LRecord)) (new : List LRecord) :
    List LRecord :=
  match master with
  | some m => dedupById (m ++ new)
  | none => new

/-- Replace the first record carrying the given id, as the Python loop
`for i, item in enumerate(master_data): if item['id'] == record_id:
master_data[i] = change; break` does. -/
def replaceFirst : List LRecord → LRecord → List LRecord
  | [], _ => []
  | x :: xs, c => if x.id == c.id then c :: xs else x :: replaceFirst xs c

/-- One iteration of the change loop of `integrate_changes_with_master`
(change_detection.py, lines 144-161): the membership test uses the lookup
built once from the originally loaded master (`origIds`), not the evolving
list. -/
def applyChange (origIds : List String) (acc : List LRecord) (c : LRecord) :
    List LRecord :=
  if origIds.contains c.id then replaceFirst acc c else acc ++ [c]

/-- Merge step of `integrate_changes_with_master` (change_detection.py).
With no existing master file the changes are written verbatim as the new
master. -/
def integrate_changes_with_master (master : Option (List LRecord))
    (changes : List LRecord) : List LRecord :=
  match master with
  | some m => changes.foldl (applyChange (idsOf m)) m
  | none => changes

/-- The record a snapshot entry ends up as after a fold-in: the batch
record with the same id if there is one, the original otherwise. -/
def overrideBy (B : List LRecord) (r : LRecord) : LRecord :=
  (B.find? (fun b => b.id == r.id)).getD r

/-- Specification-level description of a fold-in, following the spec text:
every snapshot record keeps its position, taking the batch value when the
batch carries its id, and the batch records with new ids are appended at
the end in batch order. -/
def foldInSpec (S B : List LRecord) : List LRecord :=
  S.map (overrideBy B) ++ B.filter (fun b => ! S.any (fun x => x.id == b.id))

/-- First record with the given id (well-defined lookup on a deduplicated
snapshot). -/
def dictGet (l : List LRecord) (i : String) : Option LRecord :=
  l.find? (fun r => r.id == i)

/-- Value of the Python dict `{item['id']: item for item in l}` at key `i`:
the last record of `l` with that id. -/
def pyDictGet (l : List LRecord) (i : String) : Option LRecord :=
  l.reverse.find? (fun r => r.id == i)

/-- A fold-in operation applied to the master store: either of the two code
paths that merge a batch into the snapshot. -/
inductive FoldOp where
  | update : List LRecord → FoldOp
  | integrate : List LRecord → FoldOp
deriving DecidableEq, Repr

/-- The batch carried by a fold-in operation. -/
def batchOf : FoldOp → List LRecord
  | .update b => b
  | .integrate b => b

/-- Apply one fold-in to the current master state. -/
def applyFold (master : Option (List LRecord)) : FoldOp → List LRecord
  | .update b => update_master_labels master b
  | .integrate b => integrate_changes_with_master master b

/-- Run a sequence of fold-ins starting from the empty initial state (no
master snapshot on disk); each fold-in sees the snapshot written by the
previous one. -/
def runFolds (ops : List FoldOp) : Option (List LRecord) :=
  ops.foldl (fun acc op => some (applyFold acc op)) none

/-- Content of one spreadsheet cell as seen through pandas: an empty cell
reads back as NaN, otherwise a numeric or a textual value. -/
inductive Cell where
  | nan : Cell
  | num : Int → Cell
  | str : String → Cell
deriving DecidableEq, Repr

/-- One row of the `Classifications` sheet of the edited Excel export. -/
structure Row where
  id : String
  cells : List (String × Cell)
deriving DecidableEq, Repr

/-- `row.get(category)` restricted to the label columns: `none` when the
column is absent from the sheet. -/
def rowGet (row : Row) (c : String) : Option Cell :=
  (row.cells.find? (fun p => p.1 == c)).map Prod.snd

/-- Value of a nonempty all-digit character list, `none` otherwise. -/
def parseDigits (cs : List Char) : Option Nat :=
  if cs ≠ [] ∧ cs.all Char.isDigit then
    some (cs.foldl (fun n c => 10 * n + (c.toNat - 48)) 0)
  else
    none

/-- Surrounding spaces removed, as Python `int` does before parsing. -/
def trimChars (cs : List Char) : List Char :=
  (((cs.dropWhile (fun c => c == ' ')).reverse.dropWhile
    (fun c => c == ' ')).reverse)

/-- Python `int(s)` on a string: optional sign, then decimal digits;
anything else raises `ValueError`, modelled as `none`. -/
def parsePyInt (s : String) : Option Int :=
  match trimChars s.data with
  | '-' :: rest => (parseDigits rest).map (fun n => -(n : Int))
  | '+' :: rest => (parseDigits rest).map (fun n => (n : Int))
  | cs => (parseDigits cs).map (fun n => (n : Int))

/-- The coercion `int(row.get(category, 0)) if pd.notna(row.get(category, 0))
else 0` applied to the content of one label cell: a missing column defaults
to `0`, NaN is treated as `0`, a numeric cell is truncated to its integer
value, and a textual cell goes through `int(...)`, which fails (`none`) when
the text is not a numeral. -/
def coerceCell : Option Cell → Option Int
  | none => some 0
  | some Cell.nan => some 0
  | some (Cell.num n) => some n
  | some (Cell.str s) => parsePyInt s

/-- `modified_value` for one row and one label column. -/
def modifiedValue (row : Row) (c : String) : Option Int :=
  coerceCell (rowGet row c)

/-- `original_record.get(category, 0)`. -/
def getLabel (r : LRecord) (c : String) : Int :=
  ((r.labels.find? (fun p => p.1 == c)).map Prod.snd).getD 0

/-- The category loop of `detect_changes_from_excel` for one row: the full
coerced label vector over the recognized label set, in label order, `none`
as soon as one cell fails to coerce. -/
def labelsLoop (row : Row) : List String → Option (List (String × Int))
  | [] => some []
  | c :: rest =>
    match modifiedValue row c with
    | none => none
    | some v => (labelsLoop row rest).map (fun l => (c, v) :: l)

/-- The coerced label vector of a row (see `labelsLoop`). -/
def rowLabels (row : Row) (allLabels : List String) :
    Option (List (String × Int)) :=
  labelsLoop row allLabels

/-- The body of the row loop of `detect_changes_from_excel` for one row:
`some none` when the row is skipped (unknown id) or unchanged, `some (some c)`
when it contributes the change record `c`, `none` when a cell coercion
raises and aborts the whole call. -/
def processRow (original : List LRecord) (allLabels : List String) (row : Row) :
    Option (Option LRecord) :=
  match pyDictGet original row.id with
  | none => some none
  | some orig =>
    match rowLabels row allLabels with
    | none => none
    | some newLabels =>
      if newLabels.any (fun p => getLabel orig p.1 != p.2) then
        some (some ⟨row.id, orig.text_content, newLabels⟩)
      else
        some none

/-- The row loop of `detect_changes_from_excel`, accumulating the change
records in row order and aborting on the first failing cell coercion. -/
def detectLoop (original : List LRecord) (allLabels : List String) :
    List Row → Option (List LRecord)
  | [] => some []
  | row :: rest =>
    match processRow original allLabels row with
    | none => none
    | some none => detectLoop original allLabels rest
    | some (some c) => (detectLoop original allLabels rest).map (fun cs => c :: cs)

/-- `detect_changes_from_excel` (change_detection.py, lines 32-83): compare
the loaded original records with the rows of the edited sheet and collect
the changed records. -/
def detect_changes_from_excel (original : List LRecord) (rows : List Row)
    (allLabels : List String) : Option (List LRecord) :=
  detectLoop original allLabels rows

/-- One file-system event performed by a fold-in. -/
inductive FsEvent where
  | write : String → FsEvent
  | del : String → FsEvent
deriving DecidableEq, Repr

/-- File-system event skeleton of `update_master_labels` (label_manager.py,
lines 98-103): `save_json` writes the new snapshot, and only afterwards the
previously globbed master files are removed.  When the write raises
(`writeOk = false`) the exception propagates and nothing else happens. -/
def update_master_events (existingFiles : List String) (newFile : String)
    (writeOk : Bool) : List FsEvent :=
  if writeOk then FsEvent.write newFile :: existingFiles.map FsEvent.del
  else []

/-- File-system event skeleton of `integrate_changes_with_master`
(change_detection.py, lines 163-176): write the new master file, then remove
the latest old one.  A failing write raises into the surrounding handler
before any removal. -/
def integrate_events (latestFile newFile : String) (writeOk : Bool) :
    List FsEvent :=
  if writeOk then [FsEvent.write newFile, FsEvent.del latestFile] else []

/-- Effect of one file-system event on the set of snapshot files on disk. -/
def applyEvent (files : List String) : FsEvent → List String
  | FsEvent.write f => files ++ [f]
  | FsEvent.del f => files.erase f

/-- Effect of a sequence of file-system events. -/
def applyEvents (files : List String) (evs : List FsEvent) : List String :=
  evs.foldl applyEvent files

/-- Fixed-width base-10 digits of `n` (most significant first), as produced
by the zero-padding `strftime` directives. -/
def padDigs : Nat → Nat → List Nat
  | 0, _ => []
  | w + 1, n => padDigs w (n / 10) ++ [n % 10]

/-- The character of one decimal digit. -/
def digChar (d : Nat) : Char := Char.ofNat (48 + d)

/-- Fixed-width zero-padded decimal rendering of `n`. -/
def padChars (w n : Nat) : List Char := (padDigs w n).map digChar

/-- Python string comparison `s < t`: lexicographic on code points. -/
def pyLtChars : List Char → List Char → Bool
  | [], [] => false
  | [], _ :: _ => true
  | _ :: _, [] => false
  | a :: as, b :: bs =>
    if a.toNat < b.toNat then true
    else if b.toNat < a.toNat then false
    else pyLtChars as bs

/-- Python `s < t` on strings. -/
def pyStrLt (s t : String) : Bool := pyLtChars s.data t.data

/-- `sorted(files)[-1]`: the lexicographically greatest file name. -/
def pyMaxFile (files : List String) : Option String :=
  files.foldl
    (fun acc f =>
      match acc with
      | none => some f
      | some g => if pyStrLt g f then some f else some g)
    none

/-- A wall-clock instant as `pd.Timestamp.now()` exposes it. -/
structure PyTime where
  year : Nat
  month : Nat
  day : Nat
  hour : Nat
  minute : Nat
  second : Nat
  microsecond : Nat
deriving DecidableEq, Repr

/-- `strftime('%Y%m%d_%H%M%S')`. -/
def strftimeSec (t : PyTime) : List Char :=
  padChars 4 t.year ++ padChars 2 t.month ++ padChars 2 t.day ++ ['_'] ++
    padChars 2 t.hour ++ padChars 2 t.minute ++ padChars 2 t.second

/-- `strftime('%Y%m%d_%H%M%S_%f')`. -/
def strftimeMicro (t : PyTime) : List Char :=
  strftimeSec t ++ ['_'] ++ padChars 6 t.microsecond

/-- Field bounds of a calendar instant (wide enough for the real ranges). -/
def wfTime (t : PyTime) : Prop :=
  t.year < 10000 ∧ t.month < 100 ∧ t.day < 100 ∧ t.hour < 100 ∧
    t.minute < 100 ∧ t.second < 100 ∧ t.microsecond < 1000000

/-- Chronological order at second resolution. -/
def chronLtSec (t u : PyTime) : Prop :=
  t.year < u.year ∨ (t.year = u.year ∧
    (t.month < u.month ∨ (t.month = u.month ∧
      (t.day < u.day ∨ (t.day = u.day ∧
        (t.hour < u.hour ∨ (t.hour = u.hour ∧
          (t.minute < u.minute ∨ (t.minute = u.minute ∧
            t.second < u.second)))))))))

/-- Same second of wall-clock time (all fields but the microseconds agree). -/
def sameSecond (t u : PyTime) : Prop :=
  t.year = u.year ∧ t.month = u.month ∧ t.day = u.day ∧ t.hour = u.hour ∧
    t.minute = u.minute ∧ t.second = u.second

/-- The timestamp bound predicates are all decidable conjunctions. -/
instance (t : PyTime) : Decidable (wfTime t) := by
  unfold wfTime
  infer_instance

/-- Decidability of the chronological order. -/
instance (t u : PyTime) : Decidable (chronLtSec t u) := by
  unfold chronLtSec
  infer_instance

/-- Decidability of same-second collision. -/
instance (t u : PyTime) : Decidable (sameSecond t u) := by
  unfold sameSecond
  infer_instance

/-- Characters of a master snapshot file name,
`TOTAL_MANUAL_LABEL_AT-{timestamp}_TOTAL_SAMPLE_SIZE_{total_samples}.json`,
for an already rendered timestamp. -/
def masterFilenameChars (ts : List Char) (totalSamples : Nat) : List Char :=
  "TOTAL_MANUAL_LABEL_AT-".data ++ ts ++ "_TOTAL_SAMPLE_SIZE_".data ++
    (toString totalSamples).data ++ ".json".data

/-- Master snapshot file name generated by a fold-in whose timestamp did not
collide with an existing file. -/
def master_filename (t : PyTime) (totalSamples : Nat) : String :=
  String.mk (masterFilenameChars (strftimeSec t) totalSamples)

/-- Master snapshot file name generated when the plain name already existed
and the microsecond disambiguator is appended. -/
def master_filename_micro (t : PyTime) (totalSamples : Nat) : String :=
  String.mk (masterFilenameChars (strftimeMicro t) totalSamples)

/-- `model.replace(':', '_')`. -/
def sanitizeModel (s : String) : String :=
  String.mk (s.data.map (fun c => if c == ':' then '_' else c))

/-- Batch artifact name generated by `process_batch_for_labeling`
(batch_processor.py, lines 150-158): strategy, second-resolution timestamp,
example count, sample size and sanitized model name; no collision check. -/
def batchFilename (selectionMethod : String) (t : PyTime)
    (maxExamples batchSize : Nat) (model : String) : String :=
  String.mk
    ("MANUAL_LABEL_".data ++ selectionMethod.data.map Char.toUpper ++
      "_AT-".data ++
      strftimeSec t ++ "_NUM_EXAMPLES_IN_PROMPT_".data ++
      (toString maxExamples).data ++ "_SAMPLE_SIZE_".data ++
      (toString batchSize).data ++ "_MODEL-".data ++
      (sanitizeModel model).data ++ "_.json".data)

/-- Comparison used to model `Series.nlargest` (keep = first): greater text
length first, ties resolved towards the smaller original position. -/
def lenOrd (a b : Nat × LRecord) : Bool :=
  decide (b.2.text_content.length < a.2.text_content.length) ||
    (decide (a.2.text_content.length = b.2.text_content.length) &&
      decide (a.1 ≤ b.1))

/-- `select_batch_by_length` (batch_processor.py, lines 14-29): drop the
already labeled ids, return an empty batch when nothing is left, otherwise
take the `min(batch_size, len(unlabeled))` records of greatest text length,
earliest rows first among equal lengths. -/
def select_batch_by_length (df : List LRecord) (labeledIds : List String)
    (batchSize : Nat) : List LRecord :=
  let unlabeled := df.filter (fun r => ! labeledIds.contains r.id)
  if unlabeled.length = 0 then []
  else
    ((unlabeled.enum.mergeSort lenOrd).take (min batchSize unlabeled.length)).map
      Prod.snd

/-- Sample record used in concrete instantiations. -/
def recA : LRecord := ⟨"a", "ta", [("L1", 1), ("L2", 0)]⟩

/-- Sample record with the same id as `recA` and different labels. -/
def recA2 : LRecord := ⟨"a", "ta", [("L1", 0), ("L2", 1)]⟩

/-- Sample record used in concrete instantiations. -/
def recB : LRecord := ⟨"b", "tb", [("L1", 0), ("L2", 0)]⟩

/-- Sample record used in concrete instantiations. -/
def recC : LRecord := ⟨"c", "tc", [("L1", 1), ("L2", 1)]⟩

/-- The recognized label set used in concrete instantiations. -/
def labL : List String := ["L1", "L2"]

/-- Sample edited row: flips both labels of `recA`. -/
def rowEdit : Row := ⟨"a", [("L1", Cell.num 0), ("L2", Cell.num 1)]⟩

/-- Sample row with a non-numeric text cell. -/
def rowBad : Row := ⟨"a", [("L1", Cell.str "x"), ("L2", Cell.num 1)]⟩

/-- Sample row with a NaN cell and a missing column. -/
def rowNaN : Row := ⟨"a", [("L1", Cell.nan)]⟩

/-- Sample record with a long text. -/
def recLong : LRecord := ⟨"d", "dddddd", []⟩

/-! ### Basic lemmas about the merge-by-id core -/

theorem id_rep (b x : LRecord) : (if x.id == b.id then b else x).id = x.id := by
  by_cases h : x.id = b.id
  · simp [h]
  · simp [h]

theorem foldl_insertLWW_eq (B : List LRecord) (hB : (idsOf B).Nodup) :
    ∀ acc : List LRecord, B.foldl insertLWW acc = foldInSpec acc B := by
  induction B with
  | nil =>
    intro acc
    have : acc.map (overrideBy []) = acc.map id :=
      List.map_congr_left (fun x _ => by simp [overrideBy])
    simp [foldInSpec, this]
  | cons b B ih =>
    intro acc
    have hb : b.id ∉ idsOf B := by
      simpa [idsOf] using (List.nodup_cons.mp hB).1
    have hB' : (idsOf B).Nodup := (List.nodup_cons.mp hB).2
    rw [List.foldl_cons, ih hB']
    unfold insertLWW
    by_cases hmem : acc.any (fun x => x.id == b.id) = true
    · simp only [hmem, if_true]
      unfold foldInSpec
      congr 1
      · rw [List.map_map]
        apply List.map_congr_left
        intro x _
        show overrideBy B (if x.id == b.id then b else x) = overrideBy (b :: B) x
        by_cases hxb : x.id = b.id
        · have hfind : B.find? (fun y => y.id == b.id) = none := by
            rw [List.find?_eq_none]
            intro y hy
            simp only [beq_iff_eq]
            intro hy'
            exact hb (hy' ▸ (List.mem_map_of_mem LRecord.id hy))
          simp [overrideBy, hxb, List.find?_cons, hfind]
        · simp [overrideBy, hxb, List.find?_cons, Ne.symm hxb]
      · rw [List.filter_cons]
        have : (! acc.any fun x => x.id == b.id) = false := by simp [hmem]
        simp only [this, if_false, Bool.false_eq_true]
        apply List.filter_congr
        intro y _
        congr 1
        rw [List.any_map]
        congr 1
        funext x
        simp only [Function.comp]
        rw [id_rep]
    · simp only [hmem, if_false, Bool.false_eq_true]
      unfold foldInSpec
      have hacc : ∀ x ∈ acc, x.id ≠ b.id := by
        intro x hx
        have := (List.any_eq_false.mp (Bool.not_eq_true _ ▸ hmem)) x hx
        simpa using this
      have hBne : ∀ y ∈ B, b.id ≠ y.id := by
        intro y hy hcontra
        exact hb (hcontra ▸ (List.mem_map_of_mem LRecord.id hy))
      rw [List.map_append, List.filter_cons]
      have hbbool : (! acc.any fun x => x.id == b.id) = true := by
        simp [hmem]
      simp only [hbbool, if_true]
      have h1 : acc.map (overrideBy B) = acc.map (overrideBy (b :: B)) := by
        apply List.map_congr_left
        intro x hx
        simp [overrideBy, List.find?_cons, Ne.symm (hacc x hx)]
      have h2 : [b].map (overrideBy B) = [b] := by
        have hfind : B.find? (fun y => y.id == b.id) = none := by
          rw [List.find?_eq_none]
          intro y hy
          simp [Ne.symm (hBne y hy)]
        simp [overrideBy, hfind]
      have h3 : B.filter (fun y => ! (acc ++ [b]).any fun x => x.id == y.id) =
          B.filter (fun y => ! acc.any fun x => x.id == y.id) := by
        apply List.filter_congr
        intro y hy
        simp [List.any_append, hBne y hy]
      rw [h1, h2, h3, List.append_assoc, List.singleton_append]

theorem dedupById_of_nodup {l : List LRecord} (h : (idsOf l).Nodup) :
    dedupById l = l := by
  unfold dedupById
  rw [foldl_insertLWW_eq l h []]
  simp [foldInSpec]

theorem nodup_ids_insertLWW {acc : List LRecord} (b : LRecord)
    (h : (idsOf acc).Nodup) : (idsOf (insertLWW acc b)).Nodup := by
  unfold insertLWW
  by_cases hmem : acc.any (fun x => x.id == b.id) = true
  · simp only [hmem, if_true]
    have : idsOf (acc.map fun x => if x.id == b.id then b else x) = idsOf acc := by
      unfold idsOf
      rw [List.map_map]
      apply List.map_congr_left
      intro x _
      exact id_rep b x
    rw [this]; exact h
  · simp only [hmem, if_false, Bool.false_eq_true]
    unfold idsOf
    rw [List.map_append]
    refine List.Nodup.append h (List.nodup_singleton _) ?_
    intro i hi hib
    simp only [List.map_cons, List.map_nil, List.mem_singleton] at hib
    subst hib
    obtain ⟨x, hx, hxid⟩ := List.mem_map.mp hi
    have := (List.any_eq_false.mp (Bool.not_eq_true _ ▸ hmem)) x hx
    simp [hxid] at this

theorem nodup_ids_foldl_insertLWW (B : List LRecord) :
    ∀ acc : List LRecord, (idsOf acc).Nodup →
      (idsOf (B.foldl insertLWW acc)).Nodup := by
  induction B with
  | nil => intro acc h; exact h
  | cons b B ih =>
    intro acc h
    rw [List.foldl_cons]
    exact ih _ (nodup_ids_insertLWW b h)

theorem nodup_ids_dedupById (l : List LRecord) : (idsOf (dedupById l)).Nodup :=
  nodup_ids_foldl_insertLWW l [] List.nodup_nil

theorem update_master_eq_foldInSpec (S B : List LRecord)
    (hS : (idsOf S).Nodup) (hB : (idsOf B).Nodup) :
    update_master_labels (some S) B = foldInSpec S B := by
  show dedupById (S ++ B) = _
  unfold dedupById
  rw [List.foldl_append]
  show B.foldl insertLWW (dedupById S) = _
  rw [dedupById_of_nodup hS]
  exact foldl_insertLWW_eq B hB S

theorem insertLWW_pos {acc : List LRecord} {b : LRecord}
    (h : acc.any (fun x => x.id == b.id) = true) :
    insertLWW acc b = acc.map (fun x => if x.id == b.id then b else x) := by
  unfold insertLWW
  simp [h]

theorem insertLWW_neg {acc : List LRecord} {b : LRecord}
    (h : acc.any (fun x => x.id == b.id) = false) :
    insertLWW acc b = acc ++ [b] := by
  unfold insertLWW
  simp [h]

theorem dictGet_insertLWW (acc : List LRecord) (b : LRecord) (i : String) :
    dictGet (insertLWW acc b) i =
      (if b.id == i then some b else none).or (dictGet acc i) := by
  unfold insertLWW dictGet
  by_cases hmem : acc.any (fun x => x.id == b.id) = true
  · simp only [hmem, if_true]
    rw [List.find?_map]
    have hpred : ((fun r => r.id == i) ∘ fun x => if x.id == b.id then b else x) =
        fun x => x.id == i := by
      funext x
      simp only [Function.comp]
      rw [id_rep]
    rw [hpred]
    by_cases hbi : b.id = i
    · obtain ⟨x, hx, hxp⟩ := List.any_eq_true.mp hmem
      have hxid : x.id = b.id := by simpa using hxp
      have hsome : (acc.find? fun r => r.id == i).isSome := by
        rw [List.find?_isSome]
        exact ⟨x, hx, by simp [hxid, hbi]⟩
      obtain ⟨y, hy⟩ := Option.isSome_iff_exists.mp hsome
      have hyid : y.id = i := by simpa using List.find?_some hy
      rw [hy]
      simp [hbi, hyid]
    · have : (b.id == i) = false := by simp [hbi]
      simp only [this, Bool.false_eq_true, if_false, Option.none_or]
      cases hfind : acc.find? fun r => r.id == i with
      | none => simp
      | some y =>
        have hyid : y.id = i := by simpa using List.find?_some hfind
        have hne : ¬ y.id = b.id := by
          rw [hyid]
          exact fun h => hbi h.symm
        simp [hne]
  · simp only [hmem, if_false, Bool.false_eq_true]
    rw [List.find?_append]
    by_cases hbi : b.id = i
    · have hnone : (acc.find? fun r => r.id == i) = none := by
        rw [List.find?_eq_none]
        intro x hx
        have hxb : ¬ x.id = b.id := by
          have hall : ∀ x ∈ acc, ¬ x.id = b.id := by simpa using hmem
          exact hall x hx
        simp only [beq_iff_eq]
        exact fun h => hxb (h.trans hbi.symm)
      simp [hnone, hbi, List.find?_cons]
    · have : (b.id == i) = false := by simp [hbi]
      simp [List.find?_cons, this, Option.or_none]

theorem dictGet_foldl_insertLWW (B : List LRecord) :
    ∀ (acc : List LRecord) (i : String),
      dictGet (B.foldl insertLWW acc) i =
        (B.reverse.find? (fun r => r.id == i)).or (dictGet acc i) := by
  induction B with
  | nil => intro acc i; simp
  | cons b B ih =>
    intro acc i
    rw [List.foldl_cons, ih, dictGet_insertLWW]
    rw [List.reverse_cons, List.find?_append]
    rw [Option.or_assoc]
    congr 1
    by_cases hbi : b.id = i
    · simp [List.find?_cons, hbi]
    · simp [List.find?_cons, hbi]

theorem foldl_insertLWW_override (B : List LRecord) :
    ∀ acc : List LRecord,
      (∀ b ∈ B, acc.any (fun x => x.id == b.id) = true) →
      B.foldl insertLWW acc =
        acc.map (fun r => (B.reverse.find? (fun x => x.id == r.id)).getD r) := by
  induction B with
  | nil =>
    intro acc _
    have : acc.map (fun r => ((List.reverse ([] : List LRecord)).find?
        (fun x => x.id == r.id)).getD r) = acc.map id :=
      List.map_congr_left (fun x _ => by simp)
    simp only [List.foldl_nil, this, List.map_id]
  | cons b B ih =>
    intro acc h
    have hb : acc.any (fun x => x.id == b.id) = true := h b (by simp)
    rw [List.foldl_cons, insertLWW_pos hb]
    have h' : ∀ b' ∈ B,
        (acc.map fun x => if x.id == b.id then b else x).any
          (fun x => x.id == b'.id) = true := by
      intro b' hb'
      rw [List.any_map]
      have : ((fun x => x.id == b'.id) ∘ fun x => if x.id == b.id then b else x) =
          fun x => x.id == b'.id := by
        funext x
        simp only [Function.comp]
        rw [id_rep]
      rw [this]
      exact h b' (by simp [hb'])
    rw [ih _ h', List.map_map]
    apply List.map_congr_left
    intro x _
    simp only [Function.comp]
    rw [List.reverse_cons, List.find?_append]
    rw [id_rep]
    cases hfind : B.reverse.find? fun y => y.id == x.id with
    | some y => simp
    | none =>
      simp only [Option.none_or]
      by_cases hxb : x.id = b.id
      · simp [List.find?_cons, hxb]
      · have h1 : (x.id == b.id) = false := by simp [hxb]
        have h2 : (b.id == x.id) = false := by
          simp only [beq_eq_false_iff_ne, ne_eq]
          exact fun hc => hxb hc.symm
        simp [List.find?_cons, h1, h2]

theorem dictGet_of_mem_nodup {l : List LRecord} {r : LRecord}
    (hr : r ∈ l) (h : (idsOf l).Nodup) : dictGet l r.id = some r := by
  have hsome : (l.find? fun x => x.id == r.id).isSome := by
    rw [List.find?_isSome]
    exact ⟨r, hr, by simp⟩
  obtain ⟨y, hy⟩ := Option.isSome_iff_exists.mp hsome
  have hyid : y.id = r.id := by simpa using List.find?_some hy
  have hymem : y ∈ l := List.mem_of_find?_eq_some hy
  have : y = r := List.inj_on_of_nodup_map h hymem hr hyid
  rw [dictGet, hy, this]

theorem id_overrideBy (B : List LRecord) (r : LRecord) :
    (overrideBy B r).id = r.id := by
  unfold overrideBy
  cases hfind : B.find? fun b => b.id == r.id with
  | none => rfl
  | some y => simpa using List.find?_some hfind

theorem update_master_foldl (S B : List LRecord) :
    update_master_labels (some S) B = B.foldl insertLWW (dedupById S) := by
  show dedupById (S ++ B) = _
  unfold dedupById
  rw [List.foldl_append]

theorem nodup_ids_update_master (S B : List LRecord) :
    (idsOf (update_master_labels (some S) B)).Nodup := by
  rw [update_master_foldl]
  exact nodup_ids_foldl_insertLWW B _ (nodup_ids_dedupById S)

/-- C2: fold-in is idempotent: folding the same batch into the master twice
produces the same snapshot content as folding it once. -/
theorem fold_in_idempotent (S B : List LRecord) :
    update_master_labels (some (update_master_labels (some S) B)) B =
      update_master_labels (some S) B := by
  have hMnodup := nodup_ids_update_master S B
  rw [update_master_foldl (update_master_labels (some S) B) B,
    dedupById_of_nodup hMnodup]
  have hcov : ∀ b ∈ B,
      (update_master_labels (some S) B).any (fun x => x.id == b.id) = true := by
    intro b hb
    have h1 : dictGet (update_master_labels (some S) B) b.id =
        (B.reverse.find? (fun r => r.id == b.id)).or
          (dictGet (dedupById S) b.id) := by
      rw [update_master_foldl]
      exact dictGet_foldl_insertLWW B _ _
    have h2 : (B.reverse.find? (fun r => r.id == b.id)).isSome := by
      rw [List.find?_isSome]
      exact ⟨b, by simp [hb], by simp⟩
    obtain ⟨y, hy⟩ := Option.isSome_iff_exists.mp h2
    rw [hy, Option.or_some] at h1
    unfold dictGet at h1
    have hmem := List.mem_of_find?_eq_some h1
    have hpred := List.find?_some h1
    rw [List.any_eq_true]
    exact ⟨y, hmem, hpred⟩
  rw [foldl_insertLWW_override B _ hcov]
  have hfix : ∀ r ∈ update_master_labels (some S) B,
      (B.reverse.find? (fun x => x.id == r.id)).getD r = r := by
    intro r hr
    cases hfind : B.reverse.find? fun x => x.id == r.id with
    | none => rfl
    | some y =>
      have h1 : dictGet (update_master_labels (some S) B) r.id = some y := by
        rw [update_master_foldl, dictGet_foldl_insertLWW, hfind, Option.or_some]
      have h2 : dictGet (update_master_labels (some S) B) r.id = some r :=
        dictGet_of_mem_nodup hr hMnodup
      rw [h1] at h2
      simp [Option.some.inj h2]
  calc (update_master_labels (some S) B).map
        (fun r => (B.reverse.find? (fun x => x.id == r.id)).getD r)
      = (update_master_labels (some S) B).map id :=
        List.map_congr_left (fun r hr => hfix r hr)
    _ = update_master_labels (some S) B := List.map_id _

/-- C1: fold-in merges by id with last-write-wins: an id present in both the
snapshot and the batch ends up mapped to the batch record, a snapshot record
whose id is not in the batch is kept unchanged, and the batch records with
new ids are appended after the retained snapshot part. -/
theorem fold_in_last_write_wins (S B : List LRecord)
    (hS : (idsOf S).Nodup) (hB : (idsOf B).Nodup) :
    (∀ i, i ∈ idsOf S → i ∈ idsOf B →
      dictGet (update_master_labels (some S) B) i = dictGet B i) ∧
    (∀ r ∈ S, r.id ∉ idsOf B →
      dictGet (update_master_labels (some S) B) r.id = some r) ∧
    (∀ b ∈ B, b.id ∉ idsOf S →
      dictGet (update_master_labels (some S) B) b.id = some b) ∧
    (∃ P, update_master_labels (some S) B =
      P ++ B.filter (fun b => ! S.any (fun x => x.id == b.id))) := by
  have hchar := update_master_eq_foldInSpec S B hS hB
  have hmapids : ∀ i, (S.map (overrideBy B)).find? (fun r => r.id == i) =
      ((S.find? (fun r => r.id == i)).map (overrideBy B)) := by
    intro i
    rw [List.find?_map]
    have hfun : ((fun r => r.id == i) ∘ overrideBy B) =
        (fun r : LRecord => r.id == i) := by
      funext x
      simp only [Function.comp]
      rw [id_overrideBy]
    rw [hfun]
  refine ⟨?_, ?_, ?_, ⟨S.map (overrideBy B), by rw [hchar]; rfl⟩⟩
  · intro i hiS hiB
    rw [hchar]
    unfold foldInSpec dictGet
    rw [List.find?_append, hmapids]
    obtain ⟨x, hx, hxid⟩ := List.mem_map.mp hiS
    have hxsome : (S.find? fun r => r.id == i).isSome := by
      rw [List.find?_isSome]
      exact ⟨x, hx, by simp [hxid]⟩
    obtain ⟨x0, hx0⟩ := Option.isSome_iff_exists.mp hxsome
    have hx0id : x0.id = i := by simpa using List.find?_some hx0
    obtain ⟨y, hy, hyid⟩ := List.mem_map.mp hiB
    have hysome : (B.find? fun r => r.id == i).isSome := by
      rw [List.find?_isSome]
      exact ⟨y, hy, by simp [hyid]⟩
    obtain ⟨y0, hy0⟩ := Option.isSome_iff_exists.mp hysome
    rw [hx0]
    show some (overrideBy B x0) = dictGet B i
    unfold overrideBy
    rw [hx0id, hy0]
    exact (congrArg some (by rfl)).trans hy0.symm
  · intro r hr hrB
    rw [hchar]
    unfold foldInSpec dictGet
    rw [List.find?_append, hmapids]
    have hfnd : List.find? (fun x => x.id == r.id) S = some r :=
      dictGet_of_mem_nodup hr hS
    rw [hfnd]
    have hnone : B.find? (fun b => b.id == r.id) = none := by
      rw [List.find?_eq_none]
      intro b hb
      simp only [beq_iff_eq]
      intro hbid
      exact hrB (hbid ▸ List.mem_map_of_mem LRecord.id hb)
    show some (overrideBy B r) = some r
    unfold overrideBy
    rw [hnone]
    rfl
  · intro b hb hbS
    rw [hchar]
    unfold foldInSpec dictGet
    rw [List.find?_append, hmapids]
    have hnoneS : S.find? (fun r => r.id == b.id) = none := by
      rw [List.find?_eq_none]
      intro x hx
      simp only [beq_iff_eq]
      intro hxid
      exact hbS (hxid ▸ List.mem_map_of_mem LRecord.id hx)
    rw [hnoneS]
    simp only [Option.map_none', Option.none_or]
    have hq : (! S.any fun x => x.id == b.id) = true := by
      simp only [Bool.not_eq_true', List.any_eq_false]
      intro x hx
      simp only [beq_iff_eq]
      intro hxid
      exact hbS (hxid ▸ List.mem_map_of_mem LRecord.id hx)
    have hbmem : b ∈ B.filter (fun b => ! S.any (fun x => x.id == b.id)) :=
      List.mem_filter.mpr ⟨hb, hq⟩
    have hnodup : (idsOf (B.filter (fun b => ! S.any (fun x => x.id == b.id)))).Nodup := by
      unfold idsOf
      exact (List.Sublist.map LRecord.id (List.filter_sublist B)).nodup hB
    exact dictGet_of_mem_nodup hbmem hnodup

/-- Witness for C1 at a concrete snapshot and batch. -/
theorem fold_in_last_write_wins_witness :
    dictGet (update_master_labels (some [recA, recB]) [recA2, recC]) "a" =
      dictGet [recA2, recC] "a" := by
  have h := fold_in_last_write_wins [recA, recB] [recA2, recC]
    (by decide) (by decide)
  exact h.1 "a" (by decide) (by decide)

/-! ### Characterization of the integrate-changes merge -/

theorem applyChange_pos {origIds : List String} {acc : List LRecord}
    {c : LRecord} (h : origIds.contains c.id = true) :
    applyChange origIds acc c = replaceFirst acc c := by
  unfold applyChange
  rw [h]
  simp

theorem applyChange_neg {origIds : List String} {acc : List LRecord}
    {c : LRecord} (h : origIds.contains c.id = false) :
    applyChange origIds acc c = acc ++ [c] := by
  unfold applyChange
  rw [h]
  simp

theorem replaceFirst_eq_map {S : List LRecord} (b : LRecord)
    (hnd : (idsOf S).Nodup) :
    replaceFirst S b = S.map (fun x => if x.id == b.id then b else x) := by
  induction S with
  | nil => rfl
  | cons x xs ih =>
    have hx : x.id ∉ idsOf xs := by
      simpa [idsOf] using (List.nodup_cons.mp hnd).1
    have hxs := (List.nodup_cons.mp hnd).2
    by_cases hxb : x.id = b.id
    · unfold replaceFirst
      simp only [hxb, beq_self_eq_true, if_true, List.map_cons]
      have : xs.map (fun x => if x.id == b.id then b else x) = xs.map id :=
        List.map_congr_left (fun y hy => by
          have : ¬ y.id = b.id := fun hc =>
            hx (hxb ▸ hc ▸ List.mem_map_of_mem LRecord.id hy)
          simp [this])
      rw [this, List.map_id]
    · unfold replaceFirst
      have hne : (x.id == b.id) = false := by simp [hxb]
      simp only [hne, Bool.false_eq_true, if_false, List.map_cons]
      rw [ih hxs]

theorem replaceFirst_append_left {S : List LRecord} (T : List LRecord)
    {b : LRecord} (h : b.id ∈ idsOf S) :
    replaceFirst (S ++ T) b = replaceFirst S b ++ T := by
  induction S with
  | nil => simp [idsOf] at h
  | cons x xs ih =>
    by_cases hxb : x.id = b.id
    · unfold replaceFirst
      simp [hxb]
    · have hne : (x.id == b.id) = false := by simp [hxb]
      have hmem : b.id ∈ idsOf xs := by
        rcases (by simpa [idsOf] using h : b.id = x.id ∨ b.id ∈ idsOf xs) with h1 | h1
        · exact absurd h1.symm hxb
        · exact h1
      unfold replaceFirst
      simp only [hne, Bool.false_eq_true, if_false, List.cons_append]
      rw [ih hmem]

theorem overrideBy_cons_shift {B : List LRecord} {b : LRecord}
    (hb : b.id ∉ idsOf B) (x : LRecord) :
    overrideBy (b :: B) x = overrideBy B (if x.id == b.id then b else x) := by
  by_cases hxb : x.id = b.id
  · have hfind : B.find? (fun y => y.id == b.id) = none := by
      rw [List.find?_eq_none]
      intro y hy
      simp only [beq_iff_eq]
      exact fun hc => hb (hc ▸ List.mem_map_of_mem LRecord.id hy)
    simp [overrideBy, hxb, List.find?_cons, hfind]
  · simp [overrideBy, hxb, List.find?_cons, Ne.symm hxb]

theorem integrate_aux (origIds : List String) (B : List LRecord)
    (hB : (idsOf B).Nodup) :
    ∀ S T : List LRecord, idsOf S = origIds → (idsOf S).Nodup →
      (∀ t ∈ T, t.id ∉ origIds) →
      B.foldl (applyChange origIds) (S ++ T) =
        S.map (overrideBy B) ++ T ++
          B.filter (fun b => ! origIds.contains b.id) := by
  induction B with
  | nil =>
    intro S T _ _ _
    have : S.map (overrideBy []) = S.map id :=
      List.map_congr_left (fun x _ => by simp [overrideBy])
    simp [this]
  | cons b B ih =>
    intro S T hids hnd hT
    have hbB : b.id ∉ idsOf B := by
      simpa [idsOf] using (List.nodup_cons.mp hB).1
    have hB' := (List.nodup_cons.mp hB).2
    rw [List.foldl_cons]
    by_cases hb : origIds.contains b.id = true
    · rw [applyChange_pos hb]
      have hbS : b.id ∈ idsOf S := by
        rw [hids]
        obtain ⟨a, ha, hbeq⟩ := List.contains_iff_exists_mem_beq.mp hb
        rwa [beq_iff_eq.mp hbeq]
      rw [replaceFirst_append_left T hbS, replaceFirst_eq_map b hnd]
      have hids' : idsOf (S.map fun x => if x.id == b.id then b else x) = origIds := by
        unfold idsOf
        rw [List.map_map]
        rw [show ((LRecord.id ∘ fun x => if x.id == b.id then b else x) =
          fun x : LRecord => x.id) from funext (fun x => id_rep b x)]
        exact hids
      have hnd' : (idsOf (S.map fun x => if x.id == b.id then b else x)).Nodup := by
        rw [hids']
        rw [← hids]
        exact hnd
      rw [ih hB' _ T hids' hnd' hT]
      have hmap : (S.map fun x => if x.id == b.id then b else x).map (overrideBy B) =
          S.map (overrideBy (b :: B)) := by
        rw [List.map_map]
        apply List.map_congr_left
        intro x _
        simp only [Function.comp]
        exact (overrideBy_cons_shift hbB x).symm
      rw [hmap, List.filter_cons]
      have : (! origIds.contains b.id) = false := by rw [hb]; rfl
      simp only [this, Bool.false_eq_true, if_false]
    · have hbfalse : origIds.contains b.id = false := by
        simpa using hb
      rw [applyChange_neg hbfalse, List.append_assoc]
      have hT' : ∀ t ∈ T ++ [b], t.id ∉ origIds := by
        intro t ht
        rcases List.mem_append.mp ht with h1 | h1
        · exact hT t h1
        · have hteq : t = b := by simpa using h1
          subst hteq
          intro hc
          have hcont : origIds.contains t.id = true :=
            List.contains_iff_exists_mem_beq.mpr ⟨t.id, hc, by simp⟩
          rw [hcont] at hbfalse
          exact Bool.true_eq_false.mp hbfalse
      rw [ih hB' S (T ++ [b]) hids hnd hT']
      have hmap : S.map (overrideBy B) = S.map (overrideBy (b :: B)) := by
        apply List.map_congr_left
        intro x hx
        have hxid : x.id ∈ origIds := hids ▸ List.mem_map_of_mem LRecord.id hx
        have hne : ¬ b.id = x.id := by
          intro hc
          have hcont : origIds.contains b.id = true :=
            List.contains_iff_exists_mem_beq.mpr ⟨x.id, hxid, by simp [hc]⟩
          rw [hcont] at hbfalse
          exact Bool.true_eq_false.mp hbfalse
        have : (b.id == x.id) = false := by simp [hne]
        simp [overrideBy, List.find?_cons, this]
      rw [hmap, List.filter_cons]
      have : (! origIds.contains b.id) = true := by rw [hbfalse]; rfl
      simp only [this, if_true]
      rw [List.append_assoc, List.append_assoc, List.singleton_append,
        ← List.append_assoc]

theorem integrate_eq_foldInSpec (S B : List LRecord)
    (hS : (idsOf S).Nodup) (hB : (idsOf B).Nodup) :
    integrate_changes_with_master (some S) B = foldInSpec S B := by
  show B.foldl (applyChange (idsOf S)) S = _
  have h := integrate_aux (idsOf S) B hB S [] rfl hS (by simp)
  rw [List.append_nil] at h
  rw [h]
  unfold foldInSpec
  rw [List.append_nil]
  congr 1
  apply List.filter_congr
  intro b _
  have hcontains : (idsOf S).contains b.id = S.any (fun x => x.id == b.id) := by
    by_cases hmem : b.id ∈ idsOf S
    · have h1 : (idsOf S).contains b.id = true :=
        List.contains_iff_exists_mem_beq.mpr ⟨b.id, hmem, by simp⟩
      obtain ⟨x, hx, hxid⟩ := List.mem_map.mp hmem
      have h2 : S.any (fun x => x.id == b.id) = true :=
        List.any_eq_true.mpr ⟨x, hx, by simp [hxid]⟩
      rw [h1, h2]
    · have h1 : (idsOf S).contains b.id = false := by
        cases hcb : (idsOf S).contains b.id
        · rfl
        · obtain ⟨a, ha, hbeq⟩ := List.contains_iff_exists_mem_beq.mp hcb
          have hmem' : b.id ∈ idsOf S := by
            rw [beq_iff_eq.mp hbeq]
            exact ha
          exact absurd hmem' hmem
      have h2 : S.any (fun x => x.id == b.id) = false := by
        rw [List.any_eq_false]
        intro x hx
        simp only [beq_iff_eq]
        intro hc
        exact hmem (hc ▸ List.mem_map_of_mem LRecord.id hx)
      rw [h1, h2]
  rw [hcontains]

theorem nodup_ids_foldInSpec (S B : List LRecord)
    (hS : (idsOf S).Nodup) (hB : (idsOf B).Nodup) :
    (idsOf (foldInSpec S B)).Nodup := by
  unfold foldInSpec idsOf
  rw [List.map_append]
  have hmapids : (S.map (overrideBy B)).map LRecord.id = S.map LRecord.id := by
    rw [List.map_map]
    apply List.map_congr_left
    intro x _
    simp only [Function.comp]
    exact id_overrideBy B x
  rw [hmapids]
  refine List.Nodup.append hS ?_ ?_
  · exact (List.Sublist.map LRecord.id (List.filter_sublist B)).nodup hB
  · intro i hiS hiF
    obtain ⟨y, hy, hyid⟩ := List.mem_map.mp hiF
    have hymem := (List.mem_filter.mp hy).1
    have hyq := (List.mem_filter.mp hy).2
    have : S.any (fun x => x.id == y.id) = true := by
      obtain ⟨x, hx, hxid⟩ := List.mem_map.mp (hyid ▸ hiS)
      exact List.any_eq_true.mpr ⟨x, hx, by simp [hxid]⟩
    rw [this] at hyq
    simp at hyq

theorem nodup_ids_integrate (S B : List LRecord)
    (hS : (idsOf S).Nodup) (hB : (idsOf B).Nodup) :
    (idsOf (integrate_changes_with_master (some S) B)).Nodup := by
  rw [integrate_eq_foldInSpec S B hS hB]
  exact nodup_ids_foldInSpec S B hS hB

/-- C10: fold-in is order-preserving and frame-respecting: through either
merge code path, every snapshot record keeps its position, taking the batch
record when the batch carries its id and staying unchanged otherwise, and
the batch records with new ids are appended at the end in batch order. -/
theorem fold_in_frame (S B : List LRecord)
    (hS : (idsOf S).Nodup) (hB : (idsOf B).Nodup) :
    update_master_labels (some S) B = foldInSpec S B ∧
    integrate_changes_with_master (some S) B = foldInSpec S B :=
  ⟨update_master_eq_foldInSpec S B hS hB, integrate_eq_foldInSpec S B hS hB⟩

/-- Witness for C10 at a concrete snapshot and batch. -/
theorem fold_in_frame_witness :
    update_master_labels (some [recA, recB]) [recA2, recC] =
        foldInSpec [recA, recB] [recA2, recC] ∧
      integrate_changes_with_master (some [recA, recB]) [recA2, recC] =
        foldInSpec [recA, recB] [recA2, recC] :=
  fold_in_frame [recA, recB] [recA2, recC] (by decide) (by decide)

/-- C3 (as stated) is refuted: one fold-in through
`integrate_changes_with_master`, applied to the empty initial state with a
batch that carries the same id twice, yields a snapshot in which that id
occurs twice. -/
theorem run_folds_duplicate_counterexample :
    runFolds [FoldOp.integrate [recA, recA2]] = some [recA, recA2] ∧
      ¬ (idsOf [recA, recA2]).Nodup := by
  constructor
  · rfl
  · decide

theorem run_folds_unique_ids_aux (ops : List FoldOp)
    (h : ∀ op ∈ ops, (idsOf (batchOf op)).Nodup) :
    ∀ acc : Option (List LRecord),
      (∀ m, acc = some m → (idsOf m).Nodup) →
      ∀ s, ops.foldl (fun a op => some (applyFold a op)) acc = some s →
        (idsOf s).Nodup := by
  induction ops with
  | nil =>
    intro acc hacc s hs
    exact hacc s (by simpa using hs)
  | cons op ops ih =>
    intro acc hacc s hs
    rw [List.foldl_cons] at hs
    refine ih (fun o ho => h o (by simp [ho])) _ ?_ s hs
    intro m hm
    have hm' : applyFold acc op = m := by simpa using hm
    subst hm'
    have hop : (idsOf (batchOf op)).Nodup := h op (by simp)
    cases op with
    | update b =>
      cases acc with
      | none => exact hop
      | some prior => exact nodup_ids_update_master prior b
    | integrate b =>
      cases acc with
      | none => exact hop
      | some prior =>
        exact nodup_ids_integrate prior b (hacc prior rfl) hop

/-- C3 amended: starting from the empty initial state, any sequence of
fold-ins through `update_master_labels` or `integrate_changes_with_master`
keeps ids unique in the resulting snapshot, provided every folded batch
itself carries pairwise-distinct ids (a batch with a repeated id folded
through `integrate_changes_with_master` violates the invariant). -/
theorem run_folds_unique_ids (ops : List FoldOp)
    (h : ∀ op ∈ ops, (idsOf (batchOf op)).Nodup) :
    ∀ s, runFolds ops = some s → (idsOf s).Nodup := by
  intro s hs
  exact run_folds_unique_ids_aux ops h none (fun m hm => by cases hm) s hs

/-- Witness for the amended C3 on a concrete two-step fold sequence. -/
theorem run_folds_unique_ids_witness :
    (∀ op ∈ [FoldOp.update [recA], FoldOp.integrate [recA2, recC]],
        (idsOf (batchOf op)).Nodup) ∧
      (idsOf [recA2, recC]).Nodup :=
  ⟨by decide,
    run_folds_unique_ids [FoldOp.update [recA], FoldOp.integrate [recA2, recC]]
      (by decide) [recA2, recC] (by decide)⟩

/-! ### Change detection: exactness and cell tolerance -/

theorem detectLoop_eq_filterMap (original : List LRecord)
    (allLabels : List String) :
    ∀ (rows : List Row) (cs : List LRecord),
      detectLoop original allLabels rows = some cs →
      cs = rows.filterMap
        (fun row => (processRow original allLabels row).bind id) := by
  intro rows
  induction rows with
  | nil =>
    intro cs h
    simp only [detectLoop] at h
    simp [← Option.some.inj h]
  | cons row rest ih =>
    intro cs h
    rw [List.filterMap_cons]
    cases hp : processRow original allLabels row with
    | none =>
      rw [detectLoop, hp] at h
      exact absurd h (by simp)
    | some o =>
      cases o with
      | none =>
        rw [detectLoop, hp] at h
        simpa using ih cs h
      | some c =>
        rw [detectLoop, hp] at h
        cases hrest : detectLoop original allLabels rest with
        | none => rw [hrest] at h; exact absurd h (by simp)
        | some cs' =>
          rw [hrest] at h
          simp only [Option.map_some'] at h
          simp [← Option.some.inj h, ih cs' hrest]

theorem detectLoop_none_of_bad (original : List LRecord)
    (allLabels : List String) {row : Row} :
    ∀ rows : List Row, row ∈ rows →
      processRow original allLabels row = none →
      detectLoop original allLabels rows = none := by
  intro rows
  induction rows with
  | nil => intro h; exact absurd h (by simp)
  | cons r rest ih =>
    intro hmem hbad
    rcases List.mem_cons.mp hmem with heq | htail
    · subst heq
      rw [detectLoop, hbad]
    · cases hp : processRow original allLabels r with
      | none => rw [detectLoop, hp]
      | some o =>
        cases o with
        | none =>
          rw [detectLoop, hp]
          exact ih htail hbad
        | some c =>
          rw [detectLoop, hp, ih htail hbad]
          rfl

theorem labelsLoop_none_of_bad (row : Row) {c : String} :
    ∀ allLabels : List String, c ∈ allLabels →
      modifiedValue row c = none →
      labelsLoop row allLabels = none := by
  intro allLabels
  induction allLabels with
  | nil => intro h; exact absurd h (by simp)
  | cons x rest ih =>
    intro hmem hbad
    rcases List.mem_cons.mp hmem with heq | htail
    · subst heq
      rw [labelsLoop, hbad]
    · cases hp : modifiedValue row x with
      | none => rw [labelsLoop, hp]
      | some v =>
        rw [labelsLoop, hp, ih htail hbad]
        rfl

/-- C4: extract-changes is exact: every change record comes from a sheet row
whose id is known in the original set, carries the original text verbatim
and the full coerced label vector of the row, and is present exactly when
that vector differs from the original one; in particular an unedited export
yields an empty change set. -/
theorem detect_changes_exact (original : List LRecord) (rows : List Row)
    (allLabels : List String) (cs : List LRecord)
    (h : detect_changes_from_excel original rows allLabels = some cs) :
    (∀ c ∈ cs, ∃ row ∈ rows, ∃ orig,
        pyDictGet original row.id = some orig ∧
        c.id = row.id ∧
        c.text_content = orig.text_content ∧
        rowLabels row allLabels = some c.labels ∧
        c.labels.any (fun p => getLabel orig p.1 != p.2) = true) ∧
    (∀ row ∈ rows, ∀ orig, pyDictGet original row.id = some orig →
      ∀ nl, rowLabels row allLabels = some nl →
        nl.any (fun p => getLabel orig p.1 != p.2) = true →
        (⟨row.id, orig.text_content, nl⟩ : LRecord) ∈ cs) ∧
    ((∀ row ∈ rows, ∀ orig, pyDictGet original row.id = some orig →
        ∀ nl, rowLabels row allLabels = some nl →
          nl.all (fun p => getLabel orig p.1 == p.2) = true) → cs = []) := by
  have hchar := detectLoop_eq_filterMap original allLabels rows cs h
  refine ⟨?_, ?_, ?_⟩
  · intro c hc
    rw [hchar] at hc
    obtain ⟨row, hrow, hrowc⟩ := List.mem_filterMap.mp hc
    refine ⟨row, hrow, ?_⟩
    unfold processRow at hrowc
    cases hdict : pyDictGet original row.id with
    | none => rw [hdict] at hrowc; exact absurd hrowc (by simp)
    | some orig =>
      rw [hdict] at hrowc
      cases hlab : rowLabels row allLabels with
      | none =>
        rw [hlab] at hrowc
        exact absurd hrowc (by simp)
      | some nl =>
        rw [hlab] at hrowc
        have hrowc' : (if (nl.any fun p => getLabel orig p.1 != p.2) = true then
              some (some (⟨row.id, orig.text_content, nl⟩ : LRecord))
            else some none).bind id = some c := hrowc
        by_cases hany : nl.any (fun p => getLabel orig p.1 != p.2) = true
        · rw [if_pos hany] at hrowc'
          have hceq : c = ⟨row.id, orig.text_content, nl⟩ := by
            simpa using hrowc'.symm
          subst hceq
          exact ⟨orig, rfl, rfl, rfl, rfl, hany⟩
        · rw [if_neg hany] at hrowc'
          exact absurd hrowc' (by simp)
  · intro row hrow orig hdict nl hlab hany
    rw [hchar]
    apply List.mem_filterMap.mpr
    refine ⟨row, hrow, ?_⟩
    unfold processRow
    rw [hdict, hlab]
    show (if (nl.any fun p => getLabel orig p.1 != p.2) = true then
        some (some (⟨row.id, orig.text_content, nl⟩ : LRecord))
      else some none).bind id =
        some (⟨row.id, orig.text_content, nl⟩ : LRecord)
    rw [if_pos hany]
    rfl
  · intro hall
    rw [hchar]
    rw [List.filterMap_eq_nil_iff]
    intro row hrow
    unfold processRow
    cases hdict : pyDictGet original row.id with
    | none => rfl
    | some orig =>
      cases hlab : rowLabels row allLabels with
      | none =>
        have : detectLoop original allLabels rows = none := by
          apply detectLoop_none_of_bad original allLabels rows hrow
          unfold processRow
          rw [hdict, hlab]
        rw [show detect_changes_from_excel original rows allLabels =
          detectLoop original allLabels rows from rfl, this] at h
        exact absurd h (by simp)
      | some nl =>
        have hforall := hall row hrow orig hdict nl hlab
        have hany : nl.any (fun p => getLabel orig p.1 != p.2) = false := by
          rw [List.any_eq_false]
          intro p hp
          have := List.all_eq_true.mp hforall p hp
          simp only [bne_iff_ne, ne_eq, Decidable.not_not]
          exact beq_iff_eq.mp this
        show (if (nl.any fun p => getLabel orig p.1 != p.2) = true then
            some (some (⟨row.id, orig.text_content, nl⟩ : LRecord))
          else some none).bind id = none
        rw [if_neg (by rw [hany]; exact Bool.false_ne_true)]
        rfl

/-- Witness for C4: a concrete edited export with one flipped row yields
exactly that row's change record. -/
theorem detect_changes_exact_witness :
    (⟨"a", "ta", [("L1", 0), ("L2", 1)]⟩ : LRecord) ∈ [recA2] := by
  have h := detect_changes_exact [recA] [rowEdit] labL [recA2] (by rfl)
  exact h.2.1 rowEdit (by simp) recA (by rfl) [("L1", 0), ("L2", 1)]
    (by rfl) (by rfl)

theorem processRow_congr {o1 o2 : List LRecord} (allLabels : List String)
    (row : Row) (h : pyDictGet o1 row.id = pyDictGet o2 row.id) :
    processRow o1 allLabels row = processRow o2 allLabels row := by
  unfold processRow
  rw [h]

theorem detectLoop_congr {o1 o2 : List LRecord} (allLabels : List String)
    (h : ∀ i, pyDictGet o1 i = pyDictGet o2 i) :
    ∀ rows : List Row,
      detectLoop o1 allLabels rows = detectLoop o2 allLabels rows := by
  intro rows
  induction rows with
  | nil => rfl
  | cons row rest ih =>
    rw [detectLoop, detectLoop, processRow_congr allLabels row (h row.id), ih]

/-- C8 is refuted: a label cell holding the non-numeric text "x" makes the
embedded `int(...)` coercion fail, and the whole import fails (`none`)
instead of treating the cell as `0`. -/
theorem import_nonnumeric_counterexample :
    modifiedValue rowBad "L1" = none ∧
      detect_changes_from_excel [recA] [rowBad] labL = none := by
  constructor
  · rfl
  · rfl

/-- C8 amended: per-cell tolerance holds for absent columns (value 0) and
NaN cells (value 0), and reconciliation depends on the originals only
through the id-keyed lookup; but a non-numeric (non-NaN) text cell in a row
whose id is known makes the whole import fail instead of being treated
as 0. -/
theorem import_cell_tolerance :
    (∀ (row : Row) (c : String), rowGet row c = none →
      modifiedValue row c = some 0) ∧
    (∀ (row : Row) (c : String), rowGet row c = some Cell.nan →
      modifiedValue row c = some 0) ∧
    (∀ (o1 o2 : List LRecord) (rows : List Row) (allLabels : List String),
      (∀ i, pyDictGet o1 i = pyDictGet o2 i) →
      detect_changes_from_excel o1 rows allLabels =
        detect_changes_from_excel o2 rows allLabels) ∧
    (∀ (original : List LRecord) (rows : List Row) (allLabels : List String)
        (row : Row) (orig : LRecord) (c : String) (s : String),
      row ∈ rows → pyDictGet original row.id = some orig →
      c ∈ allLabels → rowGet row c = some (Cell.str s) →
      parsePyInt s = none →
      detect_changes_from_excel original rows allLabels = none) := by
  refine ⟨?_, ?_, ?_, ?_⟩
  · intro row c h
    unfold modifiedValue
    rw [h]
    rfl
  · intro row c h
    unfold modifiedValue
    rw [h]
    rfl
  · intro o1 o2 rows allLabels h
    exact detectLoop_congr allLabels h rows
  · intro original rows allLabels row orig c s hrow hdict hc hcell hparse
    have hbadcell : modifiedValue row c = none := by
      unfold modifiedValue
      rw [hcell]
      exact hparse
    have hlabnone : rowLabels row allLabels = none :=
      labelsLoop_none_of_bad row allLabels hc hbadcell
    have hbadrow : processRow original allLabels row = none := by
      unfold processRow
      rw [hdict, hlabnone]
    exact detectLoop_none_of_bad original allLabels rows hrow hbadrow

/-- Witness for the amended C8 on concrete rows: a missing column and a NaN
cell both coerce to 0, and a concrete non-numeric cell aborts the import. -/
theorem import_cell_tolerance_witness :
    modifiedValue rowNaN "L2" = some 0 ∧
      modifiedValue rowNaN "L1" = some 0 ∧
      detect_changes_from_excel [recA] [rowBad] labL = none :=
  ⟨import_cell_tolerance.1 rowNaN "L2" (by rfl),
    import_cell_tolerance.2.1 rowNaN "L1" (by rfl),
    import_cell_tolerance.2.2.2 [recA] [rowBad] labL rowBad recA "L1" "x"
      (by simp) (by rfl) (by simp [labL]) (by rfl) (by rfl)⟩

/-! ### Snapshot replacement: write the new file before deleting old ones -/

theorem mem_applyEvents_dels (nf : String) :
    ∀ (l : List String) (files : List String), nf ∈ files →
      (∀ f ∈ l, f ≠ nf) → nf ∈ applyEvents files (l.map FsEvent.del) := by
  intro l
  induction l with
  | nil => intro files hmem _; exact hmem
  | cons f l ih =>
    intro files hmem hne
    show nf ∈ applyEvents (files.erase f) (l.map FsEvent.del)
    apply ih
    · exact (List.mem_erase_of_ne (fun hc =>
        (hne f (by simp)) hc.symm)).mpr hmem
    · intro g hg
      exact hne g (by simp [hg])

/-- C5: in both fold-in code paths every deletion of a prior snapshot file
happens strictly after the successful write of the new snapshot; when the
write fails nothing is deleted and the prior files are untouched; and at no
intermediate point does the store hold zero snapshot files. -/
theorem snapshot_write_before_delete :
    (∀ (existing : List String) (newFile : String) (ok : Bool) (i : Nat)
        (f : String),
      (update_master_events existing newFile ok)[i]? = some (FsEvent.del f) →
      ∃ j, j < i ∧ (update_master_events existing newFile ok)[j]? =
        some (FsEvent.write newFile)) ∧
    (∀ (existing : List String) (newFile : String),
      update_master_events existing newFile false = [] ∧
      applyEvents existing (update_master_events existing newFile false) =
        existing) ∧
    (∀ (existing : List String) (newFile : String) (ok : Bool) (n : Nat),
      existing ≠ [] → newFile ∉ existing →
      applyEvents existing
        ((update_master_events existing newFile ok).take n) ≠ []) ∧
    (∀ (latest newFile : String) (ok : Bool) (i : Nat) (f : String),
      (integrate_events latest newFile ok)[i]? = some (FsEvent.del f) →
      ∃ j, j < i ∧ (integrate_events latest newFile ok)[j]? =
        some (FsEvent.write newFile)) ∧
    (∀ (files : List String) (latest newFile : String) (ok : Bool) (n : Nat),
      latest ∈ files → newFile ∉ files →
      applyEvents files ((integrate_events latest newFile ok).take n) ≠ []) := by
  refine ⟨?_, ?_, ?_, ?_, ?_⟩
  · intro existing newFile ok i f hdel
    cases ok with
    | false =>
      rw [show update_master_events existing newFile false = [] from rfl] at hdel
      simp at hdel
    | true =>
      rw [show update_master_events existing newFile true =
        FsEvent.write newFile :: existing.map FsEvent.del from rfl] at hdel ⊢
      cases i with
      | zero => simp at hdel
      | succ k =>
        exact ⟨0, Nat.succ_pos k, by simp⟩
  · intro existing newFile
    exact ⟨rfl, rfl⟩
  · intro existing newFile ok n hne hnew
    cases ok with
    | false =>
      rw [show update_master_events existing newFile false = [] from rfl]
      simpa using hne
    | true =>
      rw [show update_master_events existing newFile true =
        FsEvent.write newFile :: existing.map FsEvent.del from rfl]
      cases n with
      | zero => simpa using hne
      | succ k =>
        rw [List.take_succ_cons]
        show applyEvents (existing ++ [newFile])
          ((existing.map FsEvent.del).take k) ≠ []
        rw [← List.map_take]
        apply List.ne_nil_of_mem
        apply mem_applyEvents_dels newFile (existing.take k)
          (existing ++ [newFile]) (by simp)
        intro f hf hc
        exact hnew (hc ▸ List.mem_of_mem_take hf)
  · intro latest newFile ok i f hdel
    cases ok with
    | false =>
      rw [show integrate_events latest newFile false = [] from rfl] at hdel
      simp at hdel
    | true =>
      rw [show integrate_events latest newFile true =
        [FsEvent.write newFile, FsEvent.del latest] from rfl] at hdel ⊢
      cases i with
      | zero => simp at hdel
      | succ k =>
        exact ⟨0, Nat.succ_pos k, by simp⟩
  · intro files latest newFile ok n hlat hnew
    cases ok with
    | false =>
      rw [show integrate_events latest newFile false = [] from rfl]
      simpa using List.ne_nil_of_mem hlat
    | true =>
      rw [show integrate_events latest newFile true =
        [FsEvent.write newFile, FsEvent.del latest] from rfl]
      cases n with
      | zero => simpa using List.ne_nil_of_mem hlat
      | succ k =>
        rw [List.take_succ_cons]
        cases k with
        | zero =>
          show files ++ [newFile] ≠ []
          simp
        | succ m =>
          rw [List.take_succ_cons, List.take_nil]
          show (files ++ [newFile]).erase latest ≠ []
          apply List.ne_nil_of_mem
          refine (List.mem_erase_of_ne (a := newFile) (b := latest) ?_).mpr (by simp)
          intro hc
          exact hnew (hc ▸ hlat)

/-- Witness for C5 on a concrete store with one prior snapshot. -/
theorem snapshot_write_before_delete_witness :
    (∃ j, j < 1 ∧ (update_master_events ["old.json"] "new.json" true)[j]? =
      some (FsEvent.write "new.json")) ∧
    applyEvents ["old.json"]
      ((update_master_events ["old.json"] "new.json" true).take 1) ≠ [] ∧
    applyEvents ["old.json"]
      ((integrate_events "old.json" "new.json" true).take 2) ≠ [] :=
  ⟨snapshot_write_before_delete.1 ["old.json"] "new.json" true 1 "old.json"
      (by rfl),
    snapshot_write_before_delete.2.2.1 ["old.json"] "new.json" true 1
      (by simp) (by simp),
    snapshot_write_before_delete.2.2.2.2 ["old.json"] "old.json" "new.json"
      true 2 (by simp) (by simp)⟩

/-! ### Longest-text batch selection -/

theorem select_batch_eq (df : List LRecord) (labeledIds : List String)
    (batchSize : Nat) :
    select_batch_by_length df labeledIds batchSize =
      if (df.filter (fun r => ! labeledIds.contains r.id)).length = 0 then []
      else (((df.filter (fun r => ! labeledIds.contains r.id)).enum.mergeSort
        lenOrd).take (min batchSize
          (df.filter (fun r => ! labeledIds.contains r.id)).length)).map
        Prod.snd := rfl

theorem lenOrd_trans (a b c : Nat × LRecord) (hab : lenOrd a b)
    (hbc : lenOrd b c) : lenOrd a c := by
  simp only [lenOrd, Bool.or_eq_true, decide_eq_true_eq, Bool.and_eq_true]
    at hab hbc ⊢
  omega

theorem lenOrd_total (a b : Nat × LRecord) : lenOrd a b || lenOrd b a := by
  simp only [lenOrd, Bool.or_eq_true, decide_eq_true_eq, Bool.and_eq_true]
  omega

/-- C9: the "longest" strategy keeps exactly the unlabeled records, returns
`min k |unlabeled|` of them (in particular, the empty list when none are
left), and the selected index/record pairs dominate every rejected pair:
strictly longer text, or equal length and an earlier original position. -/
theorem select_batch_by_length_correct (df : List LRecord)
    (labeledIds : List String) (batchSize : Nat) :
    (∀ r ∈ select_batch_by_length df labeledIds batchSize,
      r ∈ df.filter (fun r => ! labeledIds.contains r.id)) ∧
    (∀ r ∈ select_batch_by_length df labeledIds batchSize,
      labeledIds.contains r.id = false) ∧
    (select_batch_by_length df labeledIds batchSize).length =
      min batchSize (df.filter (fun r => ! labeledIds.contains r.id)).length ∧
    (df.filter (fun r => ! labeledIds.contains r.id) = [] →
      select_batch_by_length df labeledIds batchSize = []) ∧
    (∃ sel rest : List (Nat × LRecord),
      (df.filter (fun r => ! labeledIds.contains r.id)).enum.Perm
        (sel ++ rest) ∧
      select_batch_by_length df labeledIds batchSize = sel.map Prod.snd ∧
      ∀ p ∈ sel, ∀ q ∈ rest,
        q.2.text_content.length < p.2.text_content.length ∨
        (q.2.text_content.length = p.2.text_content.length ∧ p.1 < q.1)) := by
  by_cases hu : (df.filter (fun r => ! labeledIds.contains r.id)).length = 0
  · have hempty : df.filter (fun r => ! labeledIds.contains r.id) = [] :=
      List.length_eq_zero.mp hu
    have hres : select_batch_by_length df labeledIds batchSize = [] := by
      rw [select_batch_eq, if_pos hu]
    refine ⟨?_, ?_, ?_, ?_, ⟨[], [], ?_, ?_, ?_⟩⟩
    · intro r hr; rw [hres] at hr; exact absurd hr (by simp)
    · intro r hr; rw [hres] at hr; exact absurd hr (by simp)
    · rw [hres, hu]; simp
    · intro _; exact hres
    · rw [hempty]; rfl
    · rw [hres]; rfl
    · intro p hp; exact absurd hp (by simp)
  · have hres : select_batch_by_length df labeledIds batchSize =
        (((df.filter (fun r => ! labeledIds.contains r.id)).enum.mergeSort
          lenOrd).take (min batchSize
            (df.filter (fun r => ! labeledIds.contains r.id)).length)).map
          Prod.snd := by
      rw [select_batch_eq, if_neg hu]
    have hperm : ((df.filter (fun r => ! labeledIds.contains r.id)).enum.mergeSort
        lenOrd).Perm (df.filter (fun r => ! labeledIds.contains r.id)).enum :=
      List.mergeSort_perm _ lenOrd
    have hmemu : ∀ r ∈ select_batch_by_length df labeledIds batchSize,
        r ∈ df.filter (fun r => ! labeledIds.contains r.id) := by
      intro r hr
      rw [hres] at hr
      obtain ⟨p, hp, hpr⟩ := List.mem_map.mp hr
      have hp1 : p ∈ (df.filter (fun r => ! labeledIds.contains r.id)).enum :=
        hperm.mem_iff.mp (List.mem_of_mem_take hp)
      have := List.snd_mem_of_mem_enumFrom (by
        rw [List.enum_eq_enumFrom] at hp1
        exact hp1)
      rwa [hpr] at this
    refine ⟨hmemu, ?_, ?_, ?_, ?_⟩
    · intro r hr
      have := List.mem_filter.mp (hmemu r hr)
      simpa using this.2
    · rw [hres, List.length_map, List.length_take]
      have hslen : ((df.filter (fun r => ! labeledIds.contains r.id)).enum.mergeSort
          lenOrd).length =
          (df.filter (fun r => ! labeledIds.contains r.id)).length := by
        rw [hperm.length_eq, List.enum_length]
      rw [hslen]
      omega
    · intro hc
      rw [hc] at hu
      exact absurd rfl hu
    · refine ⟨((df.filter (fun r => ! labeledIds.contains r.id)).enum.mergeSort
          lenOrd).take (min batchSize
            (df.filter (fun r => ! labeledIds.contains r.id)).length),
        ((df.filter (fun r => ! labeledIds.contains r.id)).enum.mergeSort
          lenOrd).drop (min batchSize
            (df.filter (fun r => ! labeledIds.contains r.id)).length),
        ?_, ?_, ?_⟩
      · rw [List.take_append_drop]
        exact hperm.symm
      · rw [hres]
      · intro p hp q hq
        have hsorted : ((df.filter (fun r => ! labeledIds.contains r.id)).enum.mergeSort
            lenOrd).Pairwise (fun a b => lenOrd a b) :=
          List.sorted_mergeSort lenOrd_trans lenOrd_total _
        have hsorted2 : ((((df.filter (fun r => ! labeledIds.contains r.id)).enum.mergeSort
              lenOrd).take (min batchSize
                (df.filter (fun r => ! labeledIds.contains r.id)).length)) ++
            (((df.filter (fun r => ! labeledIds.contains r.id)).enum.mergeSort
              lenOrd).drop (min batchSize
                (df.filter (fun r => ! labeledIds.contains r.id)).length))).Pairwise
            (fun a b => lenOrd a b = true) := by
          rw [List.take_append_drop]
          exact hsorted
        have hpair : lenOrd p q = true :=
          (List.pairwise_append.mp hsorted2).2.2 p hp q hq
        have hfst : p.1 ≠ q.1 := by
          have hnodupfst : ((df.filter
              (fun r => ! labeledIds.contains r.id)).enum.map Prod.fst).Nodup :=
            List.nodup_enum_map_fst _
          have hnodups : (((df.filter (fun r => ! labeledIds.contains r.id)).enum.mergeSort
              lenOrd).map Prod.fst).Nodup :=
            ((hperm.map Prod.fst).nodup_iff).mpr hnodupfst
          have hsplit : (((df.filter (fun r => ! labeledIds.contains r.id)).enum.mergeSort
                lenOrd).map Prod.fst) =
              (((df.filter (fun r => ! labeledIds.contains r.id)).enum.mergeSort
                lenOrd).take (min batchSize
                  (df.filter (fun r => ! labeledIds.contains r.id)).length)).map
                Prod.fst ++
              (((df.filter (fun r => ! labeledIds.contains r.id)).enum.mergeSort
                lenOrd).drop (min batchSize
                  (df.filter (fun r => ! labeledIds.contains r.id)).length)).map
                Prod.fst := by
            rw [← List.map_append, List.take_append_drop]
          rw [hsplit] at hnodups
          have hdisj := List.disjoint_of_nodup_append hnodups
          intro hc
          exact hdisj (List.mem_map_of_mem Prod.fst hp)
            (hc ▸ List.mem_map_of_mem Prod.fst hq)
        simp only [lenOrd, Bool.or_eq_true, decide_eq_true_eq,
          Bool.and_eq_true] at hpair
        omega

/-- Witness for C9 on a concrete frame: requested size capped by the
available unlabeled records, and the empty-input case. -/
theorem select_batch_by_length_correct_witness :
    (select_batch_by_length [recLong, recA, recB] ["b"] 1).length =
      min 1 (([recLong, recA, recB]).filter
        (fun r => ! ["b"].contains r.id)).length ∧
    select_batch_by_length [recA] ["a"] 3 = [] :=
  ⟨(select_batch_by_length_correct [recLong, recA, recB] ["b"] 1).2.2.1,
    (select_batch_by_length_correct [recA] ["a"] 3).2.2.2.1 (by decide)⟩

/-! ### Lexicographic file-name comparison -/

theorem pyLtChars_cons_same (c : Char) (x y : List Char) :
    pyLtChars (c :: x) (c :: y) = pyLtChars x y := by
  show (if c.toNat < c.toNat then true
    else if c.toNat < c.toNat then false else pyLtChars x y) = pyLtChars x y
  simp

theorem pyLtChars_append_same (p : List Char) (x y : List Char) :
    pyLtChars (p ++ x) (p ++ y) = pyLtChars x y := by
  induction p with
  | nil => rfl
  | cons c p ih =>
    rw [List.cons_append, List.cons_append, pyLtChars_cons_same, ih]

theorem pyLtChars_irrefl : ∀ l : List Char, pyLtChars l l = false := by
  intro l
  induction l with
  | nil => rfl
  | cons c l ih => rw [pyLtChars_cons_same, ih]

theorem padDigs_length (w n : Nat) : (padDigs w n).length = w := by
  induction w generalizing n with
  | zero => rfl
  | succ w ih => simp [padDigs, ih]

theorem padDigs_lt_ten (w n : Nat) : ∀ d ∈ padDigs w n, d < 10 := by
  induction w generalizing n with
  | zero => intro d hd; exact absurd hd (by simp [padDigs])
  | succ w ih =>
    intro d hd
    rcases (by simpa [padDigs] using hd :
        d ∈ padDigs w (n / 10) ∨ d = n % 10) with h1 | h1
    · exact ih (n / 10) d h1
    · have : d = n % 10 := by simpa using h1
      subst this
      exact Nat.mod_lt n (by omega)

theorem digChar_toNat {d : Nat} (h : d < 10) : (digChar d).toNat = 48 + d := by
  interval_cases d <;> rfl

theorem padChars_lt (w : Nat) :
    ∀ (n1 n2 : Nat) (x y : List Char), n1 < 10 ^ w → n2 < 10 ^ w → n1 < n2 →
      pyLtChars (padChars w n1 ++ x) (padChars w n2 ++ y) = true := by
  induction w with
  | zero =>
    intro n1 n2 x y h1 h2 h
    simp only [pow_zero, Nat.lt_one_iff] at h1 h2
    omega
  | succ w ih =>
    intro n1 n2 x y h1 h2 h
    have hsplit : ∀ n : Nat, padChars (w + 1) n =
        padChars w (n / 10) ++ [digChar (n % 10)] := by
      intro n
      unfold padChars
      rw [show padDigs (w + 1) n = padDigs w (n / 10) ++ [n % 10] from rfl,
        List.map_append]
      rfl
    rw [hsplit n1, hsplit n2, List.append_assoc, List.append_assoc]
    have hb1 : n1 / 10 < 10 ^ w := by
      rw [Nat.div_lt_iff_lt_mul (by omega)]
      calc n1 < 10 ^ (w + 1) := h1
        _ = 10 ^ w * 10 := by rw [pow_succ]
    have hb2 : n2 / 10 < 10 ^ w := by
      rw [Nat.div_lt_iff_lt_mul (by omega)]
      calc n2 < 10 ^ (w + 1) := h2
        _ = 10 ^ w * 10 := by rw [pow_succ]
    rcases Nat.lt_or_ge (n1 / 10) (n2 / 10) with hdiv | hdiv
    · exact ih (n1 / 10) (n2 / 10) _ _ hb1 hb2 hdiv
    · have hdeq : n1 / 10 = n2 / 10 := by
        have : n1 / 10 ≤ n2 / 10 := Nat.div_le_div_right (Nat.le_of_lt h)
        omega
      rw [hdeq, pyLtChars_append_same]
      have hmod : n1 % 10 < n2 % 10 := by omega
      show pyLtChars (digChar (n1 % 10) :: x) (digChar (n2 % 10) :: y) = true
      unfold pyLtChars
      rw [digChar_toNat (Nat.mod_lt n1 (by omega)),
        digChar_toNat (Nat.mod_lt n2 (by omega))]
      simp only [Nat.add_lt_add_iff_left]
      rw [if_pos hmod]

theorem strftimeSec_lt (t u : PyTime) (ht : wfTime t) (hu : wfTime u)
    (h : chronLtSec t u) (x y : List Char) :
    pyLtChars (strftimeSec t ++ x) (strftimeSec u ++ y) = true := by
  obtain ⟨htY, htM, htD, htH, htMi, htS, _⟩ := ht
  obtain ⟨huY, huM, huD, huH, huMi, huS, _⟩ := hu
  have h4 : (10 : Nat) ^ 4 = 10000 := by norm_num
  have h2 : (10 : Nat) ^ 2 = 100 := by norm_num
  simp only [strftimeSec, List.append_assoc]
  rcases h with hY | ⟨hY, h⟩
  · exact padChars_lt 4 _ _ _ _ (by omega) (by omega) hY
  rw [hY, pyLtChars_append_same]
  rcases h with hM | ⟨hM, h⟩
  · exact padChars_lt 2 _ _ _ _ (by omega) (by omega) hM
  rw [hM, pyLtChars_append_same]
  rcases h with hD | ⟨hD, h⟩
  · exact padChars_lt 2 _ _ _ _ (by omega) (by omega) hD
  rw [hD, pyLtChars_append_same, pyLtChars_append_same]
  rcases h with hH | ⟨hH, h⟩
  · exact padChars_lt 2 _ _ _ _ (by omega) (by omega) hH
  rw [hH, pyLtChars_append_same]
  rcases h with hMi | ⟨hMi, hS⟩
  · exact padChars_lt 2 _ _ _ _ (by omega) (by omega) hMi
  rw [hMi, pyLtChars_append_same]
  exact padChars_lt 2 _ _ _ _ (by omega) (by omega) hS

theorem pyStrLt_mk (l1 l2 : List Char) :
    pyStrLt (String.mk l1) (String.mk l2) = pyLtChars l1 l2 := rfl

theorem pyStrLt_irrefl (s : String) : pyStrLt s s = false :=
  pyLtChars_irrefl s.data

theorem pyLtChars_head_lt {a b : Char} (h : a.toNat < b.toNat)
    (x y : List Char) : pyLtChars (a :: x) (b :: y) = true := by
  show (if a.toNat < b.toNat then true
    else if b.toNat < a.toNat then false else pyLtChars x y) = true
  rw [if_pos h]

theorem master_filename_lt (t u : PyTime) (n1 n2 : Nat) (ht : wfTime t)
    (hu : wfTime u) (h : chronLtSec t u) :
    pyStrLt (master_filename t n1) (master_filename u n2) = true := by
  unfold master_filename
  rw [pyStrLt_mk]
  unfold masterFilenameChars
  simp only [List.append_assoc]
  rw [pyLtChars_append_same]
  exact strftimeSec_lt t u ht hu h _ _

theorem master_filename_micro_lt (t : PyTime)
    (_hmu : t.microsecond < 1000000) (n1 n2 : Nat) :
    pyStrLt (master_filename_micro t n1) (master_filename t n2) = true := by
  unfold master_filename_micro master_filename
  rw [pyStrLt_mk]
  unfold masterFilenameChars strftimeMicro
  simp only [List.append_assoc]
  rw [pyLtChars_append_same, pyLtChars_append_same]
  simp only [List.singleton_append, List.cons_append]
  rw [pyLtChars_cons_same]
  cases hpd : padDigs 6 t.microsecond with
  | nil =>
    have := padDigs_length 6 t.microsecond
    rw [hpd] at this
    simp at this
  | cons d ds =>
    have hd10 : d < 10 := padDigs_lt_ten 6 t.microsecond d (by rw [hpd]; simp)
    rw [show padChars 6 t.microsecond = digChar d :: ds.map digChar from by
      unfold padChars; rw [hpd]; rfl]
    simp only [List.cons_append]
    apply pyLtChars_head_lt
    rw [digChar_toNat hd10]
    show 48 + d < 84
    omega

/-- C6 is refuted: a second fold-in within the same second gets the
microsecond-disambiguated name, which sorts lexicographically before the
plain name of the earlier snapshot, so `sorted(files)[-1]` selects the
chronologically older snapshot. -/
theorem snapshot_name_sort_counterexample :
    pyMaxFile [master_filename ⟨2026, 10, 12, 15, 30, 45, 0⟩ 5,
        master_filename_micro ⟨2026, 10, 12, 15, 30, 45, 123456⟩ 5] =
      some (master_filename ⟨2026, 10, 12, 15, 30, 45, 0⟩ 5) ∧
      master_filename_micro ⟨2026, 10, 12, 15, 30, 45, 123456⟩ 5 ≠
        master_filename ⟨2026, 10, 12, 15, 30, 45, 0⟩ 5 := by
  constructor
  · decide
  · decide

/-- C6 amended: snapshot names sort chronologically whenever the embedded
second-resolution timestamps differ; but the microsecond-disambiguated name
generated on a same-second collision sorts lexicographically before the
plain name it collided with, so latest-snapshot resolution can pick the
older file. -/
theorem snapshot_name_order (t u : PyTime) (n1 n2 : Nat)
    (ht : wfTime t) (hu : wfTime u) :
    (chronLtSec t u →
      pyStrLt (master_filename t n1) (master_filename u n2) = true) ∧
    pyStrLt (master_filename_micro t n1) (master_filename t n2) = true :=
  ⟨fun h => master_filename_lt t u n1 n2 ht hu h,
    master_filename_micro_lt t ht.2.2.2.2.2.2 n1 n2⟩

/-- Witness for the amended C6 at concrete timestamps. -/
theorem snapshot_name_order_witness :
    pyStrLt (master_filename ⟨2026, 10, 12, 15, 30, 45, 0⟩ 5)
        (master_filename ⟨2026, 10, 12, 15, 30, 46, 0⟩ 7) = true ∧
      pyStrLt (master_filename_micro ⟨2026, 10, 12, 15, 30, 45, 123456⟩ 5)
        (master_filename ⟨2026, 10, 12, 15, 30, 45, 123456⟩ 5) = true :=
  ⟨(snapshot_name_order ⟨2026, 10, 12, 15, 30, 45, 0⟩
      ⟨2026, 10, 12, 15, 30, 46, 0⟩ 5 7 (by decide) (by decide)).1 (by decide),
    (snapshot_name_order ⟨2026, 10, 12, 15, 30, 45, 123456⟩
      ⟨2026, 10, 12, 15, 30, 45, 123456⟩ 5 5 (by decide) (by decide)).2⟩

/-- C7 is refuted: two batch creations in the same clock second with the
same strategy, model, example count and sample size generate identical
artifact names, because the embedded timestamp has only second resolution
and no collision check is performed. -/
theorem batch_name_collision_counterexample :
    (⟨2026, 10, 12, 15, 30, 45, 111111⟩ : PyTime) ≠
        ⟨2026, 10, 12, 15, 30, 45, 222222⟩ ∧
      batchFilename "longest" ⟨2026, 10, 12, 15, 30, 45, 111111⟩ 30 10
          "gpt-4.1" =
        batchFilename "longest" ⟨2026, 10, 12, 15, 30, 45, 222222⟩ 30 10
          "gpt-4.1" := by
  constructor
  · decide
  · rfl

/-- C7 amended: batch artifact names are determined by the second-resolution
timestamp and the metadata alone: two creations in the same second with
equal parameters collide exactly, while creations in chronologically
distinct seconds (equal parameters otherwise) get distinct names. -/
theorem batch_name_uniqueness (m model : String) (mx bs : Nat)
    (t u : PyTime) (ht : wfTime t) (hu : wfTime u) :
    (sameSecond t u →
      batchFilename m t mx bs model = batchFilename m u mx bs model) ∧
    (chronLtSec t u →
      batchFilename m t mx bs model ≠ batchFilename m u mx bs model) := by
  constructor
  · intro hss
    obtain ⟨h1, h2, h3, h4, h5, h6⟩ := hss
    unfold batchFilename strftimeSec
    rw [h1, h2, h3, h4, h5, h6]
  · intro hlt hc
    have hltname : pyStrLt (batchFilename m t mx bs model)
        (batchFilename m u mx bs model) = true := by
      unfold batchFilename
      rw [pyStrLt_mk]
      simp only [List.append_assoc]
      rw [pyLtChars_append_same, pyLtChars_append_same, pyLtChars_append_same]
      exact strftimeSec_lt t u ht hu hlt _ _
    rw [hc, pyStrLt_irrefl] at hltname
    exact Bool.false_ne_true hltname

/-- Witness for the amended C7 at concrete creation times. -/
theorem batch_name_uniqueness_witness :
    batchFilename "longest" ⟨2026, 10, 12, 15, 30, 45, 111111⟩ 30 10 "gpt" =
        batchFilename "longest" ⟨2026, 10, 12, 15, 30, 45, 222222⟩ 30 10
          "gpt" ∧
      batchFilename "longest" ⟨2026, 10, 12, 15, 30, 45, 0⟩ 30 10 "gpt" ≠
        batchFilename "longest" ⟨2026, 10, 12, 15, 30, 46, 0⟩ 30 10 "gpt" :=
  ⟨(batch_name_uniqueness "longest" "gpt" 30 10
      ⟨2026, 10, 12, 15, 30, 45, 111111⟩ ⟨2026, 10, 12, 15, 30, 45, 222222⟩
      (by decide) (by decide)).1 (by decide),
    (batch_name_uniqueness "longest" "gpt" 30 10
      ⟨2026, 10, 12, 15, 30, 45, 0⟩ ⟨2026, 10, 12, 15, 30, 46, 0⟩
      (by decide) (by decide)).2 (by decide)⟩
